import Mathlib

/-!
Verification of the icon search/index logic of `aws_icons`.

The program's strings are modelled as `List Char` (`Str`).  JavaScript string
operations used by the source are embedded as executable Lean functions:
`toLowerCase` as a character map, `includes` as `<:+:` (infix), `startsWith`
as `<+:`, `split` on a one-character separator as `splitOnChar`, `trim` as
dropping JS whitespace from both ends, and Node's `path.parse(...).name`,
`path.extname`, `path.dirname` as `pathParseName`, `extnameStr`, `dirnameStr`.
`Array.prototype.sort` (stable since ES2019) is modelled by the stable
`List.insertionSort`, and `[...new Set(xs)]` by `setDedup`, which keeps the
first occurrence of each value in order, as the JS `Set` iterator does.
-/

namespace AwsIcons

abbrev Str := List Char

/-- Lower-casing a string character by character, modelling
`String.prototype.toLowerCase` on the ASCII range. -/
def toLowerStr (s : Str) : Str := s.map Char.toLower

/-- Index of the last occurrence of `ch` in `s`, if any. -/
def lastIdxOf (ch : Char) : Str → Option Nat
  | [] => none
  | c :: cs =>
    match lastIdxOf ch cs with
    | some i => some (i + 1)
    | none => if c = ch then some 0 else none

/-- Models Node's `path.parse(base).name`: the basename with its extension
removed.  The extension starts at the last `.`, except that a `.` in the
leading position (as in `.gitignore`) does not start an extension. -/
def pathParseName (s : Str) : Str :=
  match lastIdxOf '.' s with
  | none => s
  | some 0 => s
  | some i => s.take i

/-- Models Node's `path.extname` on a basename. -/
def extnameStr (s : Str) : Str :=
  match lastIdxOf '.' s with
  | none => []
  | some 0 => []
  | some i => s.drop i

/-- Models Node's `path.dirname` on a forward-slash relative path with no
trailing slash: everything before the last `/`, `"."` if there is none,
`"/"` if the only slash is leading. -/
def dirnameStr (s : Str) : Str :=
  match lastIdxOf '/' s with
  | none => ['.']
  | some 0 => ['/']
  | some i => s.take i

/-- Splitting on a single character, modelling `String.prototype.split` with
a one-character separator (`"a--b".split("-") = ["a","","b"]`,
`"".split("-") = [""]`). -/
def splitOnChar (ch : Char) : Str → List Str
  | [] => [[]]
  | c :: cs =>
    match splitOnChar ch cs with
    | [] => [[]]
    | h :: t => if c = ch then [] :: h :: t else (c :: h) :: t

/-- The JS whitespace characters relevant to `String.prototype.trim`
(space, tab, LF, CR, VT, FF, NBSP). -/
def isJsWhitespace (c : Char) : Bool :=
  c = ' ' || c = '\t' || c = '\n' || c = '\r' ||
  c = Char.ofNat 0x0B || c = Char.ofNat 0x0C || c = Char.ofNat 0xA0

/-- Models `String.prototype.trim`: strip JS whitespace from both ends. -/
def jsTrim (s : Str) : Str :=
  ((s.dropWhile isJsWhitespace).reverse.dropWhile isJsWhitespace).reverse

/-- Joining path components with `/`, the shape of every `relativePath`
built by `path.join`/`path.relative` during the traversal. -/
def joinComps : List Str → Str
  | [] => []
  | [c] => c
  | c :: cs => c ++ '/' :: joinComps cs

/-- Models `relativePath.replace(/^public\//, "/")` from the route handler:
a leading `public/` is replaced by `/`; otherwise the string is unchanged. -/
def replaceLeadingPublic (s : Str) : Str :=
  if ('p' :: 'u' :: 'b' :: 'l' :: 'i' :: 'c' :: '/' :: []) <+: s then
    '/' :: s.drop 7
  else s

/-- One file record, the `IconFile` interface of the source. -/
structure IconFile where
  name : Str
  path : Str
  relativePath : Str
  directory : Str
  size : Option Nat
  lastModified : Option Nat
  depth : Nat
deriving DecidableEq, Repr

/-- The part of the route's response computed by `searchIconFiles`:
the ranked records plus the directory roster. -/
structure SearchOutput where
  icons : List IconFile
  directories : List Str
deriving DecidableEq, Repr

/-- Directory scoping (route.ts lines 121–124): with a filter, keep records
whose `directory` equals it; otherwise keep all records.  `none` models an
absent (or falsy empty) `filter_dir` parameter. -/
def scopedSet (allFiles : List IconFile) (filterDir : Option Str) : List IconFile :=
  match filterDir with
  | some fd => allFiles.filter (fun file => decide (file.directory = fd))
  | none => allFiles

def setDedupAux (acc : List Str) : List Str → List Str
  | [] => acc
  | x :: xs => if x ∈ acc then setDedupAux acc xs else setDedupAux (acc ++ [x]) xs

/-- Models `[...new Set(xs)]`: drop duplicates, keeping the first occurrence
of each value in encounter order. -/
def setDedup (l : List Str) : List Str := setDedupAux [] l

/-- The Step-4 match predicate (route.ts lines 146–168): build the derived
targets of a record and test whether any contains the lower-cased query. -/
def matchesQuery (searchTermLower : Str) (file : IconFile) : Bool :=
  let fileName := toLowerStr file.name
  let fileNameWithoutExt := pathParseName fileName
  let directoryName := toLowerStr file.directory
  let relativePath := toLowerStr file.relativePath
  let searchTargets :=
    [fileName, fileNameWithoutExt, directoryName, relativePath] ++
      splitOnChar '-' fileNameWithoutExt ++
      splitOnChar '/' directoryName ++
      splitOnChar '/' relativePath
  searchTargets.any (fun target => decide (searchTermLower <:+: target))

/-- The relevance score (route.ts lines 177–200), transliterated from the
sequential `score += ...` updates of `getRelevanceScore`. -/
def getRelevanceScore (searchTermLower : Str) (file : IconFile) : Int :=
  let fileName := toLowerStr file.name
  let fileNameWithoutExt := pathParseName fileName
  let directory := toLowerStr file.directory
  let score0 : Int := 0
  let score1 :=
    if fileName = searchTermLower ∨ fileNameWithoutExt = searchTermLower
    then score0 + 100 else score0
  let score2 :=
    if searchTermLower <+: fileName ∨ searchTermLower <+: fileNameWithoutExt
    then score1 + 50 else score1
  let score3 := if searchTermLower <:+: directory then score2 + 25 else score2
  let score4 := if searchTermLower <:+: fileName then score3 + 10 else score3
  score4 - (file.depth : Int)

/-- The ordering used for the empty-query branch: `directory` ascending by
`localeCompare` (modelled as code-point order), then `name` ascending. -/
def emptyQueryRel (a b : IconFile) : Prop :=
  a.directory < b.directory ∨ (a.directory = b.directory ∧ a.name ≤ b.name)

instance : DecidableRel emptyQueryRel := fun a b =>
  inferInstanceAs (Decidable
    (a.directory < b.directory ∨ (a.directory = b.directory ∧ a.name ≤ b.name)))

/-- The ordering of the relevance sort: score descending, ties broken by
lower-cased directory ascending, then lower-cased name ascending. -/
def scoredRel (searchTermLower : Str) (a b : IconFile) : Prop :=
  getRelevanceScore searchTermLower b < getRelevanceScore searchTermLower a ∨
    (getRelevanceScore searchTermLower a = getRelevanceScore searchTermLower b ∧
      (toLowerStr a.directory < toLowerStr b.directory ∨
        (toLowerStr a.directory = toLowerStr b.directory ∧
          toLowerStr a.name ≤ toLowerStr b.name)))

instance (q : Str) : DecidableRel (scoredRel q) := fun a b =>
  inferInstanceAs (Decidable
    (getRelevanceScore q b < getRelevanceScore q a ∨
      (getRelevanceScore q a = getRelevanceScore q b ∧
        (toLowerStr a.directory < toLowerStr b.directory ∨
          (toLowerStr a.directory = toLowerStr b.directory ∧
            toLowerStr a.name ≤ toLowerStr b.name)))))

/-- The core of `searchIconFiles` (route.ts lines 117–215), acting on a
snapshot that has already been read: scope, build the roster, branch on the
trimmed query, filter by the match predicate and sort by relevance. -/
def searchIconFiles (allFiles : List IconFile) (searchTerm : Str)
    (filterDir : Option Str) : SearchOutput :=
  let filteredFiles := scopedSet allFiles filterDir
  let directories :=
    List.insertionSort (· ≤ ·) (setDedup (allFiles.map (·.directory)))
  if jsTrim searchTerm = [] then
    ⟨List.insertionSort emptyQueryRel filteredFiles, directories⟩
  else
    let searchTermLower := toLowerStr searchTerm
    let matchingFiles := filteredFiles.filter (matchesQuery searchTermLower)
    ⟨List.insertionSort (scoredRel searchTermLower) matchingFiles, directories⟩

/-- The public entry point over a serialized snapshot: reading/parsing is
modelled as an `Except` value; the `catch` branch returns the empty result. -/
def searchIconFilesFromSnapshot (snapshot : Except Str (List IconFile))
    (searchTerm : Str) (filterDir : Option Str) : SearchOutput :=
  match snapshot with
  | Except.error _ => ⟨[], []⟩
  | Except.ok allFiles => searchIconFiles allFiles searchTerm filterDir

/-!
The Indexer.  A directory listing is modelled as a tree: `fs.readdir` with
`withFileTypes` yields the children of a directory, and `fs.stat` data
(size, mtime) is embedded in each file node.  Windows separators never
arise in this model, so the `replace(/\\/g, "/")` calls of the source are
identities here.  A mutual inductive (tree / forest) is used so that the
traversals and their proofs can recurse structurally.
-/

mutual
inductive FSTree where
  | file (name : Str) (size : Nat) (mtime : Nat) : FSTree
  | dir (name : Str) (children : FSForest) : FSTree
deriving DecidableEq, Repr
inductive FSForest where
  | nil : FSForest
  | cons (hd : FSTree) (tl : FSForest) : FSForest
deriving DecidableEq, Repr
end

/-- The supported image extensions, after lower-casing. -/
def supportedFormats : List Str :=
  [".svg".toList, ".png".toList, ".jpg".toList, ".jpeg".toList,
   ".gif".toList, ".webp".toList, ".ico".toList]

/-- `supportedFormats.includes(path.extname(entry.name).toLowerCase())`. -/
def hasSupportedExt (name : Str) : Bool :=
  decide (toLowerStr (extnameStr name) ∈ supportedFormats)

def nodeModulesStr : Str := "node_modules".toList

def rootStr : Str := "root".toList

/-- `entry.name.startsWith(".") || entry.name === "node_modules"`,
the directory-skip test of the route's traversal. -/
def isSkippedDir (name : Str) : Bool :=
  decide (['.'] <+: name) || decide (name = nodeModulesStr)

/-- The record pushed by route.ts lines 66–78 for a file entry whose
relative path has components `rel ++ [name]`. -/
def mkRouteRecord (name : Str) (size mtime : Nat) (rel : List Str)
    (currentDepth : Nat) : IconFile :=
  let relativePath := joinComps (rel ++ [name])
  let directory := dirnameStr relativePath
  ⟨name, replaceLeadingPublic relativePath, relativePath,
    if directory = ['.'] then rootStr else directory,
    some size, some mtime, currentDepth⟩

mutual
/-- One loop iteration of route.ts `getAllFilesRecursively` for one entry.
The `currentDepth + 1 > maxDepth` guard is the `currentDepth > maxDepth`
early return at the head of the recursive call it replaces. -/
def routeFilesEntry : FSTree → List Str → Nat → Nat → List IconFile
  | FSTree.dir name children, rel, currentDepth, maxDepth =>
    if isSkippedDir name then []
    else if currentDepth + 1 > maxDepth then []
    else routeFilesList children (rel ++ [name]) (currentDepth + 1) maxDepth
  | FSTree.file name size mtime, rel, currentDepth, _ =>
    if hasSupportedExt name then [mkRouteRecord name size mtime rel currentDepth]
    else []
/-- The entry loop of route.ts `getAllFilesRecursively`. -/
def routeFilesList : FSForest → List Str → Nat → Nat → List IconFile
  | FSForest.nil, _, _, _ => []
  | FSForest.cons e es, rel, currentDepth, maxDepth =>
    routeFilesEntry e rel currentDepth maxDepth ++
      routeFilesList es rel currentDepth maxDepth
end

/-- route.ts `getAllFilesRecursively(iconsDirectory, iconsDirectory)`:
depth starts at 0 against the indexed root. -/
def getAllFilesRecursively (root : FSForest) (maxDepth : Nat) : List IconFile :=
  if 0 > maxDepth then [] else routeFilesList root [] 0 maxDepth

/-- The record pushed by `getAllIconFiles` in `generate-icons-json.js`
(lines 27–35): the public path is `/icons/` ++ relativePath, and the
`|| 'root'` fallback fires only on an empty dirname. -/
def mkGenRecord (name : Str) (size mtime : Nat) (rel : List Str)
    (depth : Nat) : IconFile :=
  let relativePath := joinComps (rel ++ [name])
  let directory := dirnameStr relativePath
  ⟨name, "/icons/".toList ++ relativePath, relativePath,
    if directory = [] then rootStr else directory,
    some size, some mtime, depth⟩

mutual
/-- One loop iteration of `getAllIconFiles` from the snapshot generator.
Note: this traversal has no dot-directory / `node_modules` skip. -/
def genFilesEntry : FSTree → List Str → Nat → Nat → List IconFile
  | FSTree.dir name children, rel, depth, maxDepth =>
    if depth + 1 > maxDepth then []
    else genFilesList children (rel ++ [name]) (depth + 1) maxDepth
  | FSTree.file name size mtime, rel, depth, _ =>
    if hasSupportedExt name then [mkGenRecord name size mtime rel depth]
    else []
/-- The entry loop of `getAllIconFiles`. -/
def genFilesList : FSForest → List Str → Nat → Nat → List IconFile
  | FSForest.nil, _, _, _ => []
  | FSForest.cons e es, rel, depth, maxDepth =>
    genFilesEntry e rel depth maxDepth ++ genFilesList es rel depth maxDepth
end

/-- `getAllIconFiles(iconsDir)` of the snapshot generator. -/
def getAllIconFiles (root : FSForest) (maxDepth : Nat) : List IconFile :=
  if 0 > maxDepth then [] else genFilesList root [] 0 maxDepth

/-- The filesystem-backed entry point of the route: a missing or
inaccessible indexed root (the failing `fs.access`) is modelled as `none`
and yields the empty result, as does the surrounding `catch`. -/
def searchIconFilesFS (root : Option FSForest) (searchTerm : Str)
    (filterDir : Option Str) : SearchOutput :=
  match root with
  | none => ⟨[], []⟩
  | some forest =>
    searchIconFiles (getAllFilesRecursively forest 10) searchTerm filterDir

/-- Well-formedness of entry names as the OS guarantees them: non-empty
and free of the `/` separator. -/
def nameOk (name : Str) : Bool :=
  decide (name ≠ []) && decide ('/' ∉ name)

mutual
def treeOk : FSTree → Bool
  | FSTree.file name _ _ => nameOk name
  | FSTree.dir name children => nameOk name && forestOk children
def forestOk : FSForest → Bool
  | FSForest.nil => true
  | FSForest.cons e es => treeOk e && forestOk es
end

/-! Helper lemmas about the string operations. -/

theorem pathParseName_isPrefix (s : Str) : pathParseName s <+: s := by
  unfold pathParseName
  cases h : lastIdxOf '.' s with
  | none => exact List.prefix_refl s
  | some i =>
    cases i with
    | zero => exact List.prefix_refl s
    | succ k => exact ⟨s.drop (k + 1), List.take_append_drop (k + 1) s⟩

theorem splitOnChar_shape (ch : Char) :
    ∀ s : Str, ∃ hd tl, splitOnChar ch s = hd :: tl ∧ hd <+: s
  | [] => ⟨[], [], rfl, List.prefix_refl []⟩
  | c :: cs => by
    obtain ⟨hd, tl, heq, hpre⟩ := splitOnChar_shape ch cs
    unfold splitOnChar
    rw [heq]
    by_cases hc : c = ch
    · exact ⟨[], hd :: tl, by simp [hc], by simp⟩
    · obtain ⟨t, ht⟩ := hpre
      exact ⟨c :: hd, tl, by simp [hc], ⟨t, by simp [ht]⟩⟩

theorem infix_of_mem_splitOnChar (ch : Char) :
    ∀ (s : Str) (p : Str), p ∈ splitOnChar ch s → p <:+: s
  | [], p, hp => by
    simp only [splitOnChar, List.mem_singleton] at hp
    exact hp ▸ List.nil_infix
  | c :: cs, p, hp => by
    obtain ⟨hd, tl, heq, hpre⟩ := splitOnChar_shape ch cs
    have hstep : splitOnChar ch (c :: cs) =
        match splitOnChar ch cs with
        | [] => [[]]
        | h :: t => if c = ch then [] :: h :: t else (c :: h) :: t := rfl
    have hstep2 : splitOnChar ch (c :: cs) =
        if c = ch then [] :: hd :: tl else (c :: hd) :: tl := by
      rw [hstep, heq]
    rw [hstep2] at hp
    by_cases hc : c = ch
    · rw [if_pos hc, List.mem_cons] at hp
      rcases hp with rfl | hp
      · exact List.nil_infix
      · exact List.infix_cons (infix_of_mem_splitOnChar ch cs p (heq ▸ hp))
    · rw [if_neg hc, List.mem_cons] at hp
      rcases hp with rfl | hp
      · obtain ⟨t, ht⟩ := hpre
        exact List.IsPrefix.isInfix ⟨t, by simp [ht]⟩
      · exact List.infix_cons
          (infix_of_mem_splitOnChar ch cs p (heq ▸ List.mem_cons_of_mem hd hp))

theorem splitOnChar_of_not_mem {ch : Char} :
    ∀ {s : Str}, ch ∉ s → splitOnChar ch s = [s]
  | [], _ => rfl
  | c :: cs, h => by
    have hc : ¬c = ch := fun hc => h (hc ▸ List.mem_cons_self c cs)
    have hcs : ch ∉ cs := fun hm => h (List.mem_cons_of_mem c hm)
    unfold splitOnChar
    rw [splitOnChar_of_not_mem hcs]
    simp [hc]

theorem splitOnChar_append_cons (ch : Char) :
    ∀ (a b : Str), ch ∉ a → splitOnChar ch (a ++ ch :: b) = a :: splitOnChar ch b
  | [], b, _ => by
    obtain ⟨hd, tl, heq, _⟩ := splitOnChar_shape ch b
    have hstep : splitOnChar ch (ch :: b) =
        match splitOnChar ch b with
        | [] => [[]]
        | h :: t => if ch = ch then [] :: h :: t else (ch :: h) :: t := rfl
    have hstep2 : splitOnChar ch (ch :: b) =
        if ch = ch then [] :: hd :: tl else (ch :: hd) :: tl := by
      rw [hstep, heq]
    rw [List.nil_append, hstep2, if_pos rfl, ← heq]
  | c :: a, b, h => by
    have hc : ¬c = ch := fun hc => h (hc ▸ List.mem_cons_self c a)
    have ha : ch ∉ a := fun hm => h (List.mem_cons_of_mem c hm)
    have hstep : splitOnChar ch (c :: (a ++ ch :: b)) =
        match splitOnChar ch (a ++ ch :: b) with
        | [] => [[]]
        | h :: t => if c = ch then [] :: h :: t else (c :: h) :: t := rfl
    rw [List.cons_append, hstep, splitOnChar_append_cons ch a b ha]
    simp [hc]

theorem lastIdxOf_of_not_mem {ch : Char} :
    ∀ {s : Str}, ch ∉ s → lastIdxOf ch s = none
  | [], _ => rfl
  | c :: cs, h => by
    have hc : ¬c = ch := fun hc => h (hc ▸ List.mem_cons_self c cs)
    have hcs : ch ∉ cs := fun hm => h (List.mem_cons_of_mem c hm)
    unfold lastIdxOf
    rw [lastIdxOf_of_not_mem hcs]
    simp [hc]

theorem lastIdxOf_append (ch : Char) :
    ∀ (a b : Str), lastIdxOf ch (a ++ b) =
      match lastIdxOf ch b with
      | some i => some (a.length + i)
      | none => lastIdxOf ch a
  | [], b => by cases h : lastIdxOf ch b <;> simp [h, lastIdxOf]
  | c :: a, b => by
    have hstep : lastIdxOf ch (c :: (a ++ b)) =
        match lastIdxOf ch (a ++ b) with
        | some i => some (i + 1)
        | none => if c = ch then some 0 else none := rfl
    rw [List.cons_append, hstep, lastIdxOf_append ch a b]
    cases h : lastIdxOf ch b with
    | none =>
      have h2 : lastIdxOf ch (c :: a) =
          match lastIdxOf ch a with
          | some i => some (i + 1)
          | none => if c = ch then some 0 else none := rfl
      rw [h2]
    | some i =>
      simp only [List.length_cons]
      congr 1
      omega

theorem joinComps_cons (c : Str) {cs : List Str} (h : cs ≠ []) :
    joinComps (c :: cs) = c ++ '/' :: joinComps cs := by
  cases cs with
  | nil => exact absurd rfl h
  | cons c' cs' => rfl

theorem joinComps_append_last :
    ∀ (comps : List Str) (n : Str), comps ≠ [] →
      joinComps (comps ++ [n]) = joinComps comps ++ '/' :: n
  | [], _, h => absurd rfl h
  | [c], n, _ => by
    rw [List.singleton_append, joinComps_cons c (by simp)]
    rfl
  | c :: c' :: cs, n, _ => by
    rw [List.cons_append, joinComps_cons c (by simp),
      joinComps_append_last (c' :: cs) n (by simp), joinComps_cons c (by simp)]
    simp

theorem joinComps_length_pos :
    ∀ {comps : List Str}, comps ≠ [] → (∀ c ∈ comps, c ≠ []) →
      0 < (joinComps comps).length
  | [], h, _ => absurd rfl h
  | [c], _, hc => by
    have : c ≠ [] := hc c (List.mem_singleton_self c)
    simpa [joinComps, List.length_pos] using this
  | c :: c' :: cs, _, hc => by
    rw [joinComps_cons c (by simp)]
    have : c ≠ [] := hc c (List.mem_cons_self c _)
    simp [List.length_pos]

theorem lastIdxOf_join :
    ∀ (comps : List Str) (n : Str), (∀ c ∈ comps, '/' ∉ c) → '/' ∉ n →
      lastIdxOf '/' (joinComps (comps ++ [n])) =
        if comps = [] then none else some (joinComps comps).length
  | [], n, _, hn => by
    simp only [List.nil_append, if_pos rfl]
    exact lastIdxOf_of_not_mem hn
  | c :: cs, n, hc, hn => by
    have hcmem : '/' ∉ c := hc c (List.mem_cons_self c cs)
    have hcs : ∀ x ∈ cs, '/' ∉ x := fun x hx => hc x (List.mem_cons_of_mem c hx)
    rw [List.cons_append, joinComps_cons c (by simp), lastIdxOf_append '/' c _]
    unfold lastIdxOf
    rw [lastIdxOf_join cs n hcs hn]
    by_cases h : cs = []
    · subst h
      simp [lastIdxOf_of_not_mem hn, joinComps]
    · rw [if_neg h, if_neg (by simp : ¬(c :: cs = [])), joinComps_cons c h]
      simp only []
      simp [List.length_append, List.length_cons]

theorem dirnameStr_join (comps : List Str) (n : Str)
    (hc : ∀ c ∈ comps, c ≠ [] ∧ '/' ∉ c) (hn : '/' ∉ n) :
    dirnameStr (joinComps (comps ++ [n])) =
      if comps = [] then ['.'] else joinComps comps := by
  unfold dirnameStr
  rw [lastIdxOf_join comps n (fun c h => (hc c h).2) hn]
  by_cases h : comps = []
  · simp [h]
  · rw [if_neg h, if_neg h]
    have hpos : 0 < (joinComps comps).length :=
      joinComps_length_pos h (fun c hm => (hc c hm).1)
    cases hlen : (joinComps comps).length with
    | zero => omega
    | succ k =>
      simp only []
      rw [joinComps_append_last comps n h, ← hlen, List.take_left]

theorem splitOnChar_join :
    ∀ (comps : List Str), comps ≠ [] → (∀ c ∈ comps, '/' ∉ c) →
      splitOnChar '/' (joinComps comps) = comps
  | [], h, _ => absurd rfl h
  | [c], _, hc => by
    rw [show joinComps [c] = c from rfl]
    exact splitOnChar_of_not_mem (hc c (List.mem_singleton_self c))
  | c :: c' :: cs, _, hc => by
    rw [joinComps_cons c (by simp),
      splitOnChar_append_cons '/' c _ (hc c (List.mem_cons_self c _)),
      splitOnChar_join (c' :: cs) (by simp)
        (fun x hx => hc x (List.mem_cons_of_mem c hx))]

theorem count_slash_join :
    ∀ (comps : List Str), comps ≠ [] → (∀ c ∈ comps, '/' ∉ c) →
      (joinComps comps).count '/' = comps.length - 1
  | [], h, _ => absurd rfl h
  | [c], _, hc => by
    rw [show joinComps [c] = c from rfl]
    simp [List.count_eq_zero.mpr (hc c (List.mem_singleton_self c))]
  | c :: c' :: cs, _, hc => by
    rw [joinComps_cons c (by simp), List.count_append,
      List.count_cons_self]
    rw [count_slash_join (c' :: cs) (by simp)
      (fun x hx => hc x (List.mem_cons_of_mem c hx))]
    rw [List.count_eq_zero.mpr (hc c (List.mem_cons_self c _))]
    simp

theorem joinComps_ne_dot {comps : List Str} (h : comps ≠ [])
    (hc : ∀ c ∈ comps, c ≠ [] ∧ '/' ∉ c ∧ ¬(['.'] <+: c)) :
    joinComps comps ≠ ['.'] := by
  match comps, h with
  | [c], _ =>
    intro heq
    have := (hc c (List.mem_singleton_self c)).2.2
    rw [show joinComps [c] = c from rfl] at heq
    exact this (heq ▸ List.prefix_refl ['.'])
  | c :: c' :: cs, _ =>
    intro heq
    have h1 : c ≠ [] := (hc c (List.mem_cons_self c _)).1
    have h2 : 0 < c.length := List.length_pos.mpr h1
    have h3 : (joinComps (c :: c' :: cs)).length = 1 := by rw [heq]; rfl
    rw [joinComps_cons c (by simp), List.length_append, List.length_cons] at h3
    omega

theorem mem_setDedupAux (x : Str) :
    ∀ (l acc : List Str), x ∈ setDedupAux acc l ↔ x ∈ acc ∨ x ∈ l
  | [], acc => by simp [setDedupAux]
  | y :: ys, acc => by
    unfold setDedupAux
    by_cases hy : y ∈ acc
    · rw [if_pos hy, mem_setDedupAux x ys acc]
      constructor
      · rintro (h | h)
        · exact Or.inl h
        · exact Or.inr (List.mem_cons_of_mem y h)
      · rintro (h | h)
        · exact Or.inl h
        · rcases List.mem_cons.mp h with rfl | h
          · exact Or.inl hy
          · exact Or.inr h
    · rw [if_neg hy, mem_setDedupAux x ys (acc ++ [y])]
      simp only [List.mem_append, List.mem_singleton, List.mem_cons]
      tauto

theorem nodup_setDedupAux :
    ∀ (l acc : List Str), acc.Nodup → (setDedupAux acc l).Nodup
  | [], _, h => h
  | y :: ys, acc, h => by
    unfold setDedupAux
    by_cases hy : y ∈ acc
    · rw [if_pos hy]
      exact nodup_setDedupAux ys acc h
    · rw [if_neg hy]
      refine nodup_setDedupAux ys (acc ++ [y]) ?_
      exact h.append (List.nodup_singleton y) (by simpa using hy)

theorem mem_setDedup (x : Str) (l : List Str) : x ∈ setDedup l ↔ x ∈ l := by
  unfold setDedup
  rw [mem_setDedupAux]
  simp

theorem nodup_setDedup (l : List Str) : (setDedup l).Nodup :=
  nodup_setDedupAux l [] List.nodup_nil

/-! The two sort relations are total preorders, as `Array.prototype.sort`
requires of a consistent comparator. -/

instance : IsTotal IconFile emptyQueryRel :=
  ⟨fun a b => by
    unfold emptyQueryRel
    rcases lt_trichotomy a.directory b.directory with h | h | h
    · exact Or.inl (Or.inl h)
    · rcases le_total a.name b.name with hn | hn
      · exact Or.inl (Or.inr ⟨h, hn⟩)
      · exact Or.inr (Or.inr ⟨h.symm, hn⟩)
    · exact Or.inr (Or.inl h)⟩

instance : IsTrans IconFile emptyQueryRel :=
  ⟨fun a b c hab hbc => by
    unfold emptyQueryRel at *
    rcases hab with h1 | ⟨e1, n1⟩ <;> rcases hbc with h2 | ⟨e2, n2⟩
    · exact Or.inl (h1.trans h2)
    · exact Or.inl (by rw [← e2]; exact h1)
    · exact Or.inl (by rw [e1]; exact h2)
    · exact Or.inr ⟨e1.trans e2, n1.trans n2⟩⟩

instance (q : Str) : IsTotal IconFile (scoredRel q) :=
  ⟨fun a b => by
    unfold scoredRel
    rcases lt_trichotomy (getRelevanceScore q a) (getRelevanceScore q b) with h | h | h
    · exact Or.inr (Or.inl h)
    · rcases lt_trichotomy (toLowerStr a.directory) (toLowerStr b.directory) with
        hd | hd | hd
      · exact Or.inl (Or.inr ⟨h, Or.inl hd⟩)
      · rcases le_total (toLowerStr a.name) (toLowerStr b.name) with hn | hn
        · exact Or.inl (Or.inr ⟨h, Or.inr ⟨hd, hn⟩⟩)
        · exact Or.inr (Or.inr ⟨h.symm, Or.inr ⟨hd.symm, hn⟩⟩)
      · exact Or.inr (Or.inr ⟨h.symm, Or.inl hd⟩)
    · exact Or.inl (Or.inl h)⟩

instance (q : Str) : IsTrans IconFile (scoredRel q) :=
  ⟨fun a b c hab hbc => by
    unfold scoredRel at *
    rcases hab with h1 | ⟨e1, l1⟩
    · rcases hbc with h2 | ⟨e2, _⟩
      · exact Or.inl (h2.trans h1)
      · exact Or.inl (by rw [← e2]; exact h1)
    · rcases hbc with h2 | ⟨e2, l2⟩
      · exact Or.inl (by rw [e1]; exact h2)
      · refine Or.inr ⟨e1.trans e2, ?_⟩
        rcases l1 with hd1 | ⟨ed1, hn1⟩
        · rcases l2 with hd2 | ⟨ed2, _⟩
          · exact Or.inl (hd1.trans hd2)
          · exact Or.inl (by rw [← ed2]; exact hd1)
        · rcases l2 with hd2 | ⟨ed2, hn2⟩
          · exact Or.inl (by rw [ed1]; exact hd2)
          · exact Or.inr ⟨ed1.trans ed2, hn1.trans hn2⟩⟩

/-! Branch equations for `searchIconFiles` and bounds on the score. -/

theorem searchIconFiles_empty (files : List IconFile) (q : Str) (fd : Option Str)
    (h : jsTrim q = []) :
    searchIconFiles files q fd =
      ⟨List.insertionSort emptyQueryRel (scopedSet files fd),
       List.insertionSort (· ≤ ·) (setDedup (files.map (·.directory)))⟩ := by
  simp [searchIconFiles, h]

theorem searchIconFiles_query (files : List IconFile) (q : Str) (fd : Option Str)
    (h : jsTrim q ≠ []) :
    searchIconFiles files q fd =
      ⟨List.insertionSort (scoredRel (toLowerStr q))
         ((scopedSet files fd).filter (matchesQuery (toLowerStr q))),
       List.insertionSort (· ≤ ·) (setDedup (files.map (·.directory)))⟩ := by
  simp [searchIconFiles, h]

theorem nodup_scopedSet (files : List IconFile) (fd : Option Str)
    (h : files.Nodup) : (scopedSet files fd).Nodup := by
  cases fd with
  | none => exact h
  | some d => exact h.filter _

/-- An exact (full or extension-stripped) filename match scores at least
`160 - depth`: the `+100` bonus forces the `+50` and `+10` bonuses too. -/
theorem score_ge_of_exact (q : Str) (f : IconFile)
    (h : toLowerStr f.name = q ∨ pathParseName (toLowerStr f.name) = q) :
    160 - (f.depth : Int) ≤ getRelevanceScore q f := by
  have h2 : q <+: toLowerStr f.name ∨ q <+: pathParseName (toLowerStr f.name) := by
    rcases h with h | h
    · exact Or.inl (by rw [h])
    · exact Or.inr (by rw [h])
  have h4 : q <:+: toLowerStr f.name := by
    rcases h with h | h
    · subst h
      exact List.infix_refl _
    · have hp := pathParseName_isPrefix (toLowerStr f.name)
      rw [h] at hp
      exact hp.isInfix
  simp only [getRelevanceScore]
  rw [if_pos h, if_pos h2, if_pos h4]
  split <;> omega

/-- Without an exact match the score is at most `85 - depth`. -/
theorem score_le_of_not_exact (q : Str) (f : IconFile)
    (h : ¬(toLowerStr f.name = q ∨ pathParseName (toLowerStr f.name) = q)) :
    getRelevanceScore q f ≤ 85 - (f.depth : Int) := by
  simp only [getRelevanceScore]
  rw [if_neg h]
  split <;> split <;> split <;> omega

/-- The simplified matching predicate of claim C10, written from the claim's
own words: the lower-cased query is contained in the lower-cased filename,
directory, or relative path. -/
def simpleMatch (searchTermLower : Str) (file : IconFile) : Bool :=
  decide (searchTermLower <:+: toLowerStr file.name) ||
  decide (searchTermLower <:+: toLowerStr file.directory) ||
  decide (searchTermLower <:+: toLowerStr file.relativePath)

/-- Claim C1: for every matched record and every non-empty query, the
relevance score equals the sum of +100 for an exact (full or
extension-stripped) filename match, +50 for a filename prefix match (on top
of the exact bonus), +25 if the directory contains the query, +10 if the
filename contains the query, minus the record's depth. -/
theorem claim1_relevance_score_formula (f : IconFile) (q : Str)
    (_hq : jsTrim q ≠ []) (_hm : matchesQuery (toLowerStr q) f = true) :
    getRelevanceScore (toLowerStr q) f =
      (if toLowerStr f.name = toLowerStr q ∨
          pathParseName (toLowerStr f.name) = toLowerStr q then (100 : Int) else 0) +
      (if toLowerStr q <+: toLowerStr f.name ∨
          toLowerStr q <+: pathParseName (toLowerStr f.name) then 50 else 0) +
      (if toLowerStr q <:+: toLowerStr f.directory then 25 else 0) +
      (if toLowerStr q <:+: toLowerStr f.name then 10 else 0) -
      (f.depth : Int) := by
  simp only [getRelevanceScore]
  split_ifs <;> omega

theorem claim1_witness :
    jsTrim ('e' :: 'c' :: '2' :: []) ≠ [] ∧
    matchesQuery (toLowerStr ('e' :: 'c' :: '2' :: []))
      ⟨"ec2.svg".toList, "ec2.svg".toList, "ec2.svg".toList, "root".toList,
        none, none, 0⟩ = true ∧
    getRelevanceScore (toLowerStr ('e' :: 'c' :: '2' :: []))
      ⟨"ec2.svg".toList, "ec2.svg".toList, "ec2.svg".toList, "root".toList,
        none, none, 0⟩ =
      (if toLowerStr ("ec2.svg".toList) = toLowerStr ('e' :: 'c' :: '2' :: []) ∨
          pathParseName (toLowerStr ("ec2.svg".toList)) =
            toLowerStr ('e' :: 'c' :: '2' :: []) then (100 : Int) else 0) +
      (if toLowerStr ('e' :: 'c' :: '2' :: []) <+: toLowerStr ("ec2.svg".toList) ∨
          toLowerStr ('e' :: 'c' :: '2' :: []) <+:
            pathParseName (toLowerStr ("ec2.svg".toList)) then 50 else 0) +
      (if toLowerStr ('e' :: 'c' :: '2' :: []) <:+: toLowerStr ("root".toList)
        then 25 else 0) +
      (if toLowerStr ('e' :: 'c' :: '2' :: []) <:+: toLowerStr ("ec2.svg".toList)
        then 10 else 0) -
      ((0 : Nat) : Int) :=
  ⟨by decide, by decide,
    claim1_relevance_score_formula
      ⟨"ec2.svg".toList, "ec2.svg".toList, "ec2.svg".toList, "root".toList,
        none, none, 0⟩
      ('e' :: 'c' :: '2' :: []) (by decide) (by decide)⟩

/-- Claim C2 (amended): for every query that is either empty or not
whitespace-only, every record in the returned icons list satisfies the
Step-4 match predicate.  (A non-empty whitespace-only query takes the
empty-query branch, whose results need not contain the whitespace.) -/
theorem claim2_results_satisfy_match (records : List IconFile) (q : Str)
    (fd : Option Str) (h : jsTrim q ≠ [] ∨ q = []) :
    ∀ f ∈ (searchIconFiles records q fd).icons,
      matchesQuery (toLowerStr q) f = true := by
  rcases h with h | rfl
  · rw [searchIconFiles_query records q fd h]
    intro f hf
    exact (List.mem_filter.mp ((List.mem_insertionSort _).mp hf)).2
  · intro f _
    simp only [matchesQuery, List.any_eq_true, decide_eq_true_eq]
    exact ⟨toLowerStr f.name, by simp, List.nil_infix⟩

theorem claim2_witness :
    (jsTrim ('a' :: []) ≠ [] ∨ ('a' :: []) = []) ∧
    (∀ f ∈ (searchIconFiles
        [⟨"ab.svg".toList, "ab.svg".toList, "ab.svg".toList, "root".toList,
          none, none, 0⟩] ('a' :: []) none).icons,
      matchesQuery (toLowerStr ('a' :: [])) f = true) :=
  ⟨Or.inl (by decide),
    claim2_results_satisfy_match
      [⟨"ab.svg".toList, "ab.svg".toList, "ab.svg".toList, "root".toList,
        none, none, 0⟩] ('a' :: []) none (Or.inl (by decide))⟩

/-- Claim C2 fails as frozen: for the whitespace-only query `" "` the
empty-query branch returns records whose targets need not contain a space. -/
theorem claim2_counterexample :
    (searchIconFiles
        [⟨"a.svg".toList, "a.svg".toList, "a.svg".toList, "root".toList,
          none, none, 0⟩] (' ' :: []) none).icons =
      [⟨"a.svg".toList, "a.svg".toList, "a.svg".toList, "root".toList,
        none, none, 0⟩] ∧
    matchesQuery (toLowerStr (' ' :: []))
      ⟨"a.svg".toList, "a.svg".toList, "a.svg".toList, "root".toList,
        none, none, 0⟩ = false := by
  decide

/-- Claim C3: `directories` is the distinct, ascending-sorted roster of the
unfiltered snapshot's `directory` values, independent of the filter. -/
theorem claim3_directories_roster (records : List IconFile) (q : Str)
    (fd : Option Str) :
    ((searchIconFiles records q fd).directories).Sorted (· ≤ ·) ∧
    ((searchIconFiles records q fd).directories).Nodup ∧
    (∀ d, d ∈ (searchIconFiles records q fd).directories ↔
      d ∈ records.map (fun f => f.directory)) ∧
    (searchIconFiles records q fd).directories =
      (searchIconFiles records q none).directories := by
  have hdir : ∀ fd', (searchIconFiles records q fd').directories =
      List.insertionSort (· ≤ ·) (setDedup (records.map (fun f => f.directory))) := by
    intro fd'
    by_cases h : jsTrim q = []
    · rw [searchIconFiles_empty records q fd' h]
    · rw [searchIconFiles_query records q fd' h]
  refine ⟨?_, ?_, ?_, ?_⟩
  · rw [hdir fd]
    exact List.sorted_insertionSort _ _
  · rw [hdir fd]
    exact ((List.perm_insertionSort _ _).nodup_iff).mpr (nodup_setDedup _)
  · intro d
    rw [hdir fd, (List.perm_insertionSort _ _).mem_iff, mem_setDedup]
  · rw [hdir fd, hdir none]

/-- Claim C4: for an empty or whitespace-only query, the result is exactly
the scoped set (a permutation, hence each record exactly once, and nodup
when the snapshot is), sorted by directory then name ascending. -/
theorem claim4_empty_query (records : List IconFile) (q : Str) (fd : Option Str)
    (h : jsTrim q = []) :
    ((searchIconFiles records q fd).icons).Perm (scopedSet records fd) ∧
    ((searchIconFiles records q fd).icons).Sorted emptyQueryRel ∧
    (records.Nodup → ((searchIconFiles records q fd).icons).Nodup) := by
  rw [searchIconFiles_empty records q fd h]
  exact ⟨List.perm_insertionSort _ _, List.sorted_insertionSort _ _,
    fun hnd => ((List.perm_insertionSort _ _).nodup_iff).mpr
      (nodup_scopedSet records fd hnd)⟩

theorem claim4_witness :
    jsTrim (' ' :: []) = [] ∧
    (((searchIconFiles
        [⟨"b.svg".toList, "b.svg".toList, "b.svg".toList, "root".toList,
          none, none, 0⟩] (' ' :: []) none).icons).Perm
      (scopedSet
        [⟨"b.svg".toList, "b.svg".toList, "b.svg".toList, "root".toList,
          none, none, 0⟩] none) ∧
    ((searchIconFiles
        [⟨"b.svg".toList, "b.svg".toList, "b.svg".toList, "root".toList,
          none, none, 0⟩] (' ' :: []) none).icons).Sorted emptyQueryRel ∧
    (([⟨"b.svg".toList, "b.svg".toList, "b.svg".toList, "root".toList,
        none, none, 0⟩] : List IconFile).Nodup →
      ((searchIconFiles
        [⟨"b.svg".toList, "b.svg".toList, "b.svg".toList, "root".toList,
          none, none, 0⟩] (' ' :: []) none).icons).Nodup)) :=
  ⟨by decide,
    claim4_empty_query
      [⟨"b.svg".toList, "b.svg".toList, "b.svg".toList, "root".toList,
        none, none, 0⟩] (' ' :: []) none (by decide)⟩

/-- Claim C6: the public entry points are total and every failure branch
(snapshot read/parse error, missing indexed root) yields the empty result. -/
theorem claim6_fail_open : ∀ (e : Str) (q : Str) (fd : Option Str),
    searchIconFilesFS none q fd = ⟨[], []⟩ ∧
    searchIconFilesFromSnapshot (Except.error e) q fd = ⟨[], []⟩ :=
  fun _ _ _ => ⟨rfl, rfl⟩

/-- Claim C10: the Step-4 predicate over the seven classes of derived
targets is equivalent to containment in filename, directory, or relative
path alone, because every split token and the stripped filename are
substrings of one of those three. -/
theorem claim10_match_refinement (q : Str) (f : IconFile) (_hq : q ≠ []) :
    matchesQuery q f = simpleMatch q f := by
  have hiff : matchesQuery q f = true ↔ simpleMatch q f = true := by
    constructor
    · intro h
      simp only [matchesQuery, List.any_eq_true, decide_eq_true_eq] at h
      obtain ⟨t, ht, hqt⟩ := h
      simp only [List.mem_append, List.mem_cons, List.not_mem_nil, or_false] at ht
      simp only [simpleMatch, Bool.or_eq_true, decide_eq_true_eq]
      rcases ht with (((rfl | rfl | rfl | rfl) | hs) | hs) | hs
      · exact Or.inl (Or.inl hqt)
      · exact Or.inl (Or.inl
          (hqt.trans (pathParseName_isPrefix (toLowerStr f.name)).isInfix))
      · exact Or.inl (Or.inr hqt)
      · exact Or.inr hqt
      · exact Or.inl (Or.inl (hqt.trans
          ((infix_of_mem_splitOnChar '-' _ t hs).trans
            (pathParseName_isPrefix (toLowerStr f.name)).isInfix)))
      · exact Or.inl (Or.inr (hqt.trans (infix_of_mem_splitOnChar '/' _ t hs)))
      · exact Or.inr (hqt.trans (infix_of_mem_splitOnChar '/' _ t hs))
    · intro h
      simp only [simpleMatch, Bool.or_eq_true, decide_eq_true_eq] at h
      simp only [matchesQuery, List.any_eq_true, decide_eq_true_eq]
      rcases h with (h | h) | h
      · exact ⟨toLowerStr f.name, by simp, h⟩
      · exact ⟨toLowerStr f.directory, by simp, h⟩
      · exact ⟨toLowerStr f.relativePath, by simp, h⟩
  cases hm : matchesQuery q f <;> cases hs : simpleMatch q f <;> simp_all

theorem claim10_witness :
    ('e' :: 'c' :: []) ≠ ([] : Str) ∧
    matchesQuery ('e' :: 'c' :: [])
      ⟨"ec2.svg".toList, "ec2.svg".toList, "compute/ec2.svg".toList,
        "compute".toList, none, none, 1⟩ =
      simpleMatch ('e' :: 'c' :: [])
        ⟨"ec2.svg".toList, "ec2.svg".toList, "compute/ec2.svg".toList,
          "compute".toList, none, none, 1⟩ :=
  ⟨by decide,
    claim10_match_refinement ('e' :: 'c' :: [])
      ⟨"ec2.svg".toList, "ec2.svg".toList, "compute/ec2.svg".toList,
        "compute".toList, none, none, 1⟩ (by decide)⟩

/-- Claim C5 (amended): an exact-match record of depth below 75 (every
Indexer-produced record has depth at most 10) appears strictly above every
matched record with no exact match.  Without a depth bound the `-depth`
penalty can drown the exact-match bonus. -/
theorem claim5_exact_outranks (records : List IconFile) (q : Str)
    (fd : Option Str) (hq : jsTrim q ≠ [])
    (i j : Fin ((searchIconFiles records q fd).icons.length))
    (hex : toLowerStr ((searchIconFiles records q fd).icons.get i).name =
        toLowerStr q ∨
      pathParseName (toLowerStr ((searchIconFiles records q fd).icons.get i).name) =
        toLowerStr q)
    (hnex : ¬(toLowerStr ((searchIconFiles records q fd).icons.get j).name =
        toLowerStr q ∨
      pathParseName (toLowerStr ((searchIconFiles records q fd).icons.get j).name) =
        toLowerStr q))
    (hd : ((searchIconFiles records q fd).icons.get i).depth < 75) :
    (i : ℕ) < (j : ℕ) := by
  have hsorted : ((searchIconFiles records q fd).icons).Sorted
      (scoredRel (toLowerStr q)) := by
    rw [searchIconFiles_query records q fd hq]
    exact List.sorted_insertionSort _ _
  by_contra hcon
  push_neg at hcon
  have hne : (j : ℕ) ≠ (i : ℕ) := by
    intro hji
    rw [Fin.ext hji] at hnex
    exact hnex hex
  have hji : j < i := Fin.lt_def.mpr (lt_of_le_of_ne hcon hne)
  have hrel := hsorted.rel_get_of_lt hji
  have h1 := score_ge_of_exact (toLowerStr q) _ hex
  have h2 := score_le_of_not_exact (toLowerStr q) _ hnex
  rcases hrel with hlt | ⟨heq, _⟩ <;> omega

theorem claim5_witness :
    jsTrim ('a' :: []) ≠ [] ∧
    (toLowerStr ((searchIconFiles
        [⟨"a.svg".toList, "a.svg".toList, "a.svg".toList, "root".toList,
          none, none, 0⟩,
         ⟨"ab.svg".toList, "ab.svg".toList, "ab.svg".toList, "root".toList,
          none, none, 0⟩] ('a' :: []) none).icons.get ⟨0, by decide⟩).name =
        toLowerStr ('a' :: []) ∨
      pathParseName (toLowerStr ((searchIconFiles
        [⟨"a.svg".toList, "a.svg".toList, "a.svg".toList, "root".toList,
          none, none, 0⟩,
         ⟨"ab.svg".toList, "ab.svg".toList, "ab.svg".toList, "root".toList,
          none, none, 0⟩] ('a' :: []) none).icons.get ⟨0, by decide⟩).name) =
        toLowerStr ('a' :: [])) ∧
    ¬(toLowerStr ((searchIconFiles
        [⟨"a.svg".toList, "a.svg".toList, "a.svg".toList, "root".toList,
          none, none, 0⟩,
         ⟨"ab.svg".toList, "ab.svg".toList, "ab.svg".toList, "root".toList,
          none, none, 0⟩] ('a' :: []) none).icons.get ⟨1, by decide⟩).name =
        toLowerStr ('a' :: []) ∨
      pathParseName (toLowerStr ((searchIconFiles
        [⟨"a.svg".toList, "a.svg".toList, "a.svg".toList, "root".toList,
          none, none, 0⟩,
         ⟨"ab.svg".toList, "ab.svg".toList, "ab.svg".toList, "root".toList,
          none, none, 0⟩] ('a' :: []) none).icons.get ⟨1, by decide⟩).name) =
        toLowerStr ('a' :: [])) ∧
    ((⟨0, by decide⟩ : Fin ((searchIconFiles
        [⟨"a.svg".toList, "a.svg".toList, "a.svg".toList, "root".toList,
          none, none, 0⟩,
         ⟨"ab.svg".toList, "ab.svg".toList, "ab.svg".toList, "root".toList,
          none, none, 0⟩] ('a' :: []) none).icons.length)) : ℕ) <
      ((⟨1, by decide⟩ : Fin ((searchIconFiles
        [⟨"a.svg".toList, "a.svg".toList, "a.svg".toList, "root".toList,
          none, none, 0⟩,
         ⟨"ab.svg".toList, "ab.svg".toList, "ab.svg".toList, "root".toList,
          none, none, 0⟩] ('a' :: []) none).icons.length)) : ℕ) :=
  ⟨by decide, by decide, by decide,
    claim5_exact_outranks
      [⟨"a.svg".toList, "a.svg".toList, "a.svg".toList, "root".toList,
        none, none, 0⟩,
       ⟨"ab.svg".toList, "ab.svg".toList, "ab.svg".toList, "root".toList,
        none, none, 0⟩] ('a' :: []) none (by decide)
      ⟨0, by decide⟩ ⟨1, by decide⟩ (by decide) (by decide) (by decide)⟩

/-- Claim C5 fails as frozen: an exact-match record at depth 101 scores 59
and sorts strictly below a non-exact prefix match at depth 0 scoring 60. -/
theorem claim5_counterexample :
    (searchIconFiles
        [⟨"a.svg".toList, "a.svg".toList, "a.svg".toList, "root".toList,
          none, none, 101⟩,
         ⟨"ab.svg".toList, "ab.svg".toList, "ab.svg".toList, "root".toList,
          none, none, 0⟩] ('a' :: []) none).icons =
      [⟨"ab.svg".toList, "ab.svg".toList, "ab.svg".toList, "root".toList,
        none, none, 0⟩,
       ⟨"a.svg".toList, "a.svg".toList, "a.svg".toList, "root".toList,
        none, none, 101⟩] ∧
    (toLowerStr ("a.svg".toList) = toLowerStr ('a' :: []) ∨
      pathParseName (toLowerStr ("a.svg".toList)) = toLowerStr ('a' :: [])) ∧
    ¬(toLowerStr ("ab.svg".toList) = toLowerStr ('a' :: []) ∨
      pathParseName (toLowerStr ("ab.svg".toList)) = toLowerStr ('a' :: [])) ∧
    matchesQuery (toLowerStr ('a' :: []))
      ⟨"ab.svg".toList, "ab.svg".toList, "ab.svg".toList, "root".toList,
        none, none, 0⟩ = true := by
  decide

/-! Structural facts about the two traversals. -/

theorem isSkippedDir_eq_false {c : Str} :
    isSkippedDir c = false ↔ ¬(['.'] <+: c) ∧ c ≠ nodeModulesStr := by
  simp [isSkippedDir]

/-- The shape of every record the route traversal can produce below a
well-formed listing: its relative path extends the current prefix by
non-skipped well-formed directory components and a file name, its `path`
and `directory` are derived from it, and its depth counts the added
directory components. -/
def RouteShape (f : IconFile) (rel : List Str) (d : Nat) : Prop :=
  ∃ ext n,
    (∀ c ∈ ext, c ≠ [] ∧ '/' ∉ c ∧ isSkippedDir c = false) ∧
    n ≠ [] ∧ '/' ∉ n ∧
    f.name = n ∧
    f.relativePath = joinComps (rel ++ ext ++ [n]) ∧
    f.path = replaceLeadingPublic f.relativePath ∧
    f.directory = (if rel ++ ext = [] then rootStr else joinComps (rel ++ ext)) ∧
    f.depth = d + ext.length

mutual
theorem routeEntry_mem : ∀ (e : FSTree) (rel : List Str) (d m : Nat),
    treeOk e = true →
    (∀ c ∈ rel, c ≠ [] ∧ '/' ∉ c ∧ isSkippedDir c = false) →
    ∀ f ∈ routeFilesEntry e rel d m, RouteShape f rel d
  | FSTree.file name size mtime, rel, d, m, hok, hrel, f, hf => by
    simp only [treeOk, nameOk, Bool.and_eq_true, decide_eq_true_eq] at hok
    simp only [routeFilesEntry] at hf
    by_cases hs : hasSupportedExt name
    · rw [if_pos hs, List.mem_singleton] at hf
      subst hf
      refine ⟨[], name, fun c hc => absurd hc (List.not_mem_nil c),
        hok.1, hok.2, rfl, by simp [mkRouteRecord], rfl, ?_, by simp [mkRouteRecord]⟩
      have hdj := dirnameStr_join rel name
        (fun c hc => ⟨(hrel c hc).1, (hrel c hc).2.1⟩) hok.2
      simp only [mkRouteRecord, List.append_nil]
      rw [hdj]
      by_cases hr : rel = []
      · simp [hr]
      · rw [if_neg hr]
        rw [if_neg (joinComps_ne_dot hr (fun c hc =>
          ⟨(hrel c hc).1, (hrel c hc).2.1,
            (isSkippedDir_eq_false.mp (hrel c hc).2.2).1⟩)), if_neg hr]
    · rw [if_neg hs] at hf
      exact absurd hf (List.not_mem_nil f)
  | FSTree.dir name children, rel, d, m, hok, hrel, f, hf => by
    simp only [treeOk, nameOk, Bool.and_eq_true, decide_eq_true_eq] at hok
    simp only [routeFilesEntry] at hf
    by_cases hskip : isSkippedDir name
    · rw [if_pos hskip] at hf
      exact absurd hf (List.not_mem_nil f)
    · rw [if_neg hskip] at hf
      by_cases hdep : d + 1 > m
      · rw [if_pos hdep] at hf
        exact absurd hf (List.not_mem_nil f)
      · rw [if_neg hdep] at hf
        have hrel' : ∀ c ∈ rel ++ [name],
            c ≠ [] ∧ '/' ∉ c ∧ isSkippedDir c = false := by
          intro c hc
          rcases List.mem_append.mp hc with hc | hc
          · exact hrel c hc
          · rw [List.mem_singleton] at hc
            subst hc
            exact ⟨hok.1.1, hok.1.2, Bool.eq_false_iff.mpr hskip⟩
        obtain ⟨ext, n, hext, hn1, hn2, hname, hrp, hpath, hdir, hdep'⟩ :=
          routeList_mem children (rel ++ [name]) (d + 1) m hok.2 hrel' f hf
        have hls : (rel ++ [name]) ++ ext = rel ++ name :: ext := by simp
        refine ⟨name :: ext, n, ?_, hn1, hn2, hname, ?_, hpath, ?_, ?_⟩
        · intro c hc
          rcases List.mem_cons.mp hc with rfl | hc
          · exact ⟨hok.1.1, hok.1.2, Bool.eq_false_iff.mpr hskip⟩
          · exact hext c hc
        · rw [hrp, hls]
        · rw [hdir, hls]
        · rw [hdep', List.length_cons]
          omega
theorem routeList_mem : ∀ (fr : FSForest) (rel : List Str) (d m : Nat),
    forestOk fr = true →
    (∀ c ∈ rel, c ≠ [] ∧ '/' ∉ c ∧ isSkippedDir c = false) →
    ∀ f ∈ routeFilesList fr rel d m, RouteShape f rel d
  | FSForest.nil, _, _, _, _, _, f, hf => absurd hf (List.not_mem_nil f)
  | FSForest.cons e es, rel, d, m, hok, hrel, f, hf => by
    simp only [forestOk, Bool.and_eq_true] at hok
    simp only [routeFilesList] at hf
    rcases List.mem_append.mp hf with hf | hf
    · exact routeEntry_mem e rel d m hok.1 hrel f hf
    · exact routeList_mem es rel d m hok.2 hrel f hf
end

/-- The shape of every record the snapshot-generator traversal produces:
like `RouteShape` but with the `/icons/` path prefix and no constraint on
the directory components (nothing is skipped). -/
def GenShape (f : IconFile) (rel : List Str) (d : Nat) : Prop :=
  ∃ ext n,
    (∀ c ∈ ext, c ≠ [] ∧ '/' ∉ c) ∧
    n ≠ [] ∧ '/' ∉ n ∧
    f.name = n ∧
    f.relativePath = joinComps (rel ++ ext ++ [n]) ∧
    f.path = "/icons/".toList ++ f.relativePath ∧
    f.depth = d + ext.length

mutual
theorem genEntry_mem : ∀ (e : FSTree) (rel : List Str) (d m : Nat),
    treeOk e = true → ∀ f ∈ genFilesEntry e rel d m, GenShape f rel d
  | FSTree.file name size mtime, rel, d, m, hok, f, hf => by
    simp only [treeOk, nameOk, Bool.and_eq_true, decide_eq_true_eq] at hok
    simp only [genFilesEntry] at hf
    by_cases hs : hasSupportedExt name
    · rw [if_pos hs, List.mem_singleton] at hf
      subst hf
      exact ⟨[], name, fun c hc => absurd hc (List.not_mem_nil c),
        hok.1, hok.2, rfl, by simp [mkGenRecord], rfl, by simp [mkGenRecord]⟩
    · rw [if_neg hs] at hf
      exact absurd hf (List.not_mem_nil f)
  | FSTree.dir name children, rel, d, m, hok, f, hf => by
    simp only [treeOk, nameOk, Bool.and_eq_true, decide_eq_true_eq] at hok
    simp only [genFilesEntry] at hf
    by_cases hdep : d + 1 > m
    · rw [if_pos hdep] at hf
      exact absurd hf (List.not_mem_nil f)
    · rw [if_neg hdep] at hf
      obtain ⟨ext, n, hext, hn1, hn2, hname, hrp, hpath, hdep'⟩ :=
        genList_mem children (rel ++ [name]) (d + 1) m hok.2 f hf
      have hls : (rel ++ [name]) ++ ext = rel ++ name :: ext := by simp
      refine ⟨name :: ext, n, ?_, hn1, hn2, hname, ?_, hpath, ?_⟩
      · intro c hc
        rcases List.mem_cons.mp hc with rfl | hc
        · exact ⟨hok.1.1, hok.1.2⟩
        · exact hext c hc
      · rw [hrp, hls]
      · rw [hdep', List.length_cons]
        omega
theorem genList_mem : ∀ (fr : FSForest) (rel : List Str) (d m : Nat),
    forestOk fr = true → ∀ f ∈ genFilesList fr rel d m, GenShape f rel d
  | FSForest.nil, _, _, _, _, f, hf => absurd hf (List.not_mem_nil f)
  | FSForest.cons e es, rel, d, m, hok, f, hf => by
    simp only [forestOk, Bool.and_eq_true] at hok
    simp only [genFilesList] at hf
    rcases List.mem_append.mp hf with hf | hf
    · exact genEntry_mem e rel d m hok.1 f hf
    · exact genList_mem es rel d m hok.2 f hf
end

/-- Claim C7 (amended): only the snapshot generator prefixes the public
mount `/icons/`; the per-request indexer's `path` is the relative path with
a leading `public/` replaced (which never fires below `public/icons`). -/
theorem claim7_path_shapes (fr : FSForest) (hok : forestOk fr = true) :
    (∀ f ∈ getAllIconFiles fr 10, f.path = "/icons/".toList ++ f.relativePath) ∧
    (∀ f ∈ getAllFilesRecursively fr 10,
      f.path = replaceLeadingPublic f.relativePath) := by
  constructor
  · intro f hf
    have hf' : f ∈ genFilesList fr [] 0 10 := by
      simpa [getAllIconFiles] using hf
    obtain ⟨_, _, _, _, _, _, _, hpath, _⟩ := genList_mem fr [] 0 10 hok f hf'
    exact hpath
  · intro f hf
    have hf' : f ∈ routeFilesList fr [] 0 10 := by
      simpa [getAllFilesRecursively] using hf
    obtain ⟨_, _, _, _, _, _, _, hpath, _, _⟩ :=
      routeList_mem fr [] 0 10 hok (by simp) f hf'
    exact hpath

theorem claim7_witness :
    forestOk (FSForest.cons (FSTree.file ("a.svg".toList) 1 2) FSForest.nil) = true ∧
    (mkGenRecord ("a.svg".toList) 1 2 [] 0).path =
      "/icons/".toList ++ (mkGenRecord ("a.svg".toList) 1 2 [] 0).relativePath :=
  ⟨by decide,
    (claim7_path_shapes
        (FSForest.cons (FSTree.file ("a.svg".toList) 1 2) FSForest.nil)
        (by decide)).1 (mkGenRecord ("a.svg".toList) 1 2 [] 0) (by decide)⟩

/-- Claim C7 fails as frozen: a record produced by the per-request indexer
for a file directly under the indexed root has `path = "a.svg"`, which does
not begin with `/` and hence with no public mount prefix. -/
theorem claim7_counterexample :
    (getAllFilesRecursively
        (FSForest.cons (FSTree.file ("a.svg".toList) 1 2) FSForest.nil) 10).map
      (fun f => f.path) = ["a.svg".toList] ∧
    ¬(['/'] <+: "a.svg".toList) := by
  decide

/-- Claim C8 (amended): `depth` equals the count of `/` separators in
`relativePath` (not that count minus one), for both indexers. -/
theorem claim8_depth_is_separator_count (fr : FSForest)
    (hok : forestOk fr = true) :
    (∀ f ∈ getAllFilesRecursively fr 10,
      f.depth = f.relativePath.count '/') ∧
    (∀ f ∈ getAllIconFiles fr 10,
      f.depth = f.relativePath.count '/') := by
  constructor
  · intro f hf
    have hf' : f ∈ routeFilesList fr [] 0 10 := by
      simpa [getAllFilesRecursively] using hf
    obtain ⟨ext, n, hext, hn1, hn2, _, hrp, _, _, hdep⟩ :=
      routeList_mem fr [] 0 10 hok (by simp) f hf'
    have hsf : ∀ x ∈ ext ++ [n], '/' ∉ x := by
      intro x hx
      rcases List.mem_append.mp hx with hx | hx
      · exact (hext x hx).2.1
      · rw [List.mem_singleton] at hx
        subst hx
        exact hn2
    rw [hrp, hdep]
    simp only [List.nil_append]
    rw [count_slash_join (ext ++ [n]) (by simp) hsf]
    simp
  · intro f hf
    have hf' : f ∈ genFilesList fr [] 0 10 := by
      simpa [getAllIconFiles] using hf
    obtain ⟨ext, n, hext, hn1, hn2, _, hrp, _, hdep⟩ :=
      genList_mem fr [] 0 10 hok f hf'
    have hsf : ∀ x ∈ ext ++ [n], '/' ∉ x := by
      intro x hx
      rcases List.mem_append.mp hx with hx | hx
      · exact (hext x hx).2
      · rw [List.mem_singleton] at hx
        subst hx
        exact hn2
    rw [hrp, hdep]
    simp only [List.nil_append]
    rw [count_slash_join (ext ++ [n]) (by simp) hsf]
    simp

theorem claim8_witness :
    forestOk (FSForest.cons (FSTree.file ("a.svg".toList) 1 2) FSForest.nil) = true ∧
    (mkRouteRecord ("a.svg".toList) 1 2 [] 0).depth =
      (mkRouteRecord ("a.svg".toList) 1 2 [] 0).relativePath.count '/' :=
  ⟨by decide,
    (claim8_depth_is_separator_count
        (FSForest.cons (FSTree.file ("a.svg".toList) 1 2) FSForest.nil)
        (by decide)).1 (mkRouteRecord ("a.svg".toList) 1 2 [] 0) (by decide)⟩

/-- Claim C8 fails as frozen: a file one directory below the root gets
`depth = 1` with one separator in its relative path, but the claimed
formula (separator count minus one) gives 0. -/
theorem claim8_counterexample :
    (getAllFilesRecursively
        (FSForest.cons
          (FSTree.dir ("compute".toList)
            (FSForest.cons (FSTree.file ("ec2.svg".toList) 1 2) FSForest.nil))
          FSForest.nil) 10).map
      (fun f => (f.depth, f.relativePath.count '/')) = [(1, 1)] ∧
    (1 : Nat) ≠ 1 - 1 := by
  decide

/-- Claim C9 (amended): the per-request indexer (route.ts) never emits a
record lying under a dot-directory or a `node_modules` directory: every
directory component of its `directory` and `relativePath` fields passes the
skip filter.  The snapshot generator has no such skip (see the
counterexample). -/
theorem claim9_route_skips_dirs (fr : FSForest) (hok : forestOk fr = true) :
    ∀ f ∈ getAllFilesRecursively fr 10,
      (∀ c ∈ splitOnChar '/' f.directory,
        ¬(['.'] <+: c) ∧ c ≠ nodeModulesStr) ∧
      (∀ c ∈ (splitOnChar '/' f.relativePath).dropLast,
        ¬(['.'] <+: c) ∧ c ≠ nodeModulesStr) := by
  intro f hf
  have hf' : f ∈ routeFilesList fr [] 0 10 := by
    simpa [getAllFilesRecursively] using hf
  obtain ⟨ext, n, hext, hn1, hn2, _, hrp, _, hdir, _⟩ :=
    routeList_mem fr [] 0 10 hok (by simp) f hf'
  simp only [List.nil_append] at hrp hdir
  constructor
  · intro c hc
    rw [hdir] at hc
    by_cases hx : ext = []
    · rw [if_pos hx] at hc
      have hroot : splitOnChar '/' rootStr = [rootStr] := by decide
      rw [hroot, List.mem_singleton] at hc
      subst hc
      exact ⟨by decide, by decide⟩
    · rw [if_neg hx,
        splitOnChar_join ext hx (fun x hx' => (hext x hx').2.1)] at hc
      exact isSkippedDir_eq_false.mp (hext c hc).2.2
  · intro c hc
    have hsf : ∀ x ∈ ext ++ [n], '/' ∉ x := by
      intro x hx
      rcases List.mem_append.mp hx with hx | hx
      · exact (hext x hx).2.1
      · rw [List.mem_singleton] at hx
        subst hx
        exact hn2
    rw [hrp, splitOnChar_join (ext ++ [n]) (by simp) hsf,
      List.dropLast_concat] at hc
    exact isSkippedDir_eq_false.mp (hext c hc).2.2

theorem claim9_witness :
    forestOk
      (FSForest.cons
        (FSTree.dir ("compute".toList)
          (FSForest.cons (FSTree.file ("ec2.svg".toList) 1 2) FSForest.nil))
        FSForest.nil) = true ∧
    (¬(['.'] <+: "compute".toList) ∧ "compute".toList ≠ nodeModulesStr) :=
  ⟨by decide,
    (claim9_route_skips_dirs
        (FSForest.cons
          (FSTree.dir ("compute".toList)
            (FSForest.cons (FSTree.file ("ec2.svg".toList) 1 2) FSForest.nil))
          FSForest.nil)
        (by decide)
        (mkRouteRecord ("ec2.svg".toList) 1 2 ["compute".toList] 1)
        (by decide)).1 ("compute".toList) (by decide)⟩

/-- Claim C9 fails as frozen for the snapshot generator, which recurses
into dot-directories: a file under `.hidden` yields a record whose
`directory` is `.hidden`. -/
theorem claim9_counterexample :
    (getAllIconFiles
        (FSForest.cons
          (FSTree.dir (".hidden".toList)
            (FSForest.cons (FSTree.file ("a.svg".toList) 1 2) FSForest.nil))
          FSForest.nil) 10).map (fun f => f.directory) = [".hidden".toList] ∧
    (['.'] <+: ".hidden".toList) := by
  decide

end AwsIcons
